import Mathlib

/-!
Shallow embedding of `atomic-batcher` (src/src/lib.rs).

The Rust `Batcher<T>` struct holds
  running: Option<mpsc::Receiver<()>>,
  pending_batch: Vec<T>,
  pending_callbacks: Vec<fn(Result<(), &str>) -> ()>,
  callbacks: Vec<fn(Result<(), &str>) -> ()>,
  run: fn(Vec<T>, mpsc::Sender<()>) -> ().

We model the one-shot completion channel by two booleans: `running`
(whether the `Option` is `Some`) and `signaled` (whether a `()` message is
waiting in the currently held channel, i.e. whether `rx.try_recv()` would
return `Ok`).  The run function and the callbacks are opaque to the code
(plain function pointers that the batcher only stores and calls), so
invocations of them are recorded as events in a trace rather than executed:
`Event.run b` records `(self.run)(b, send)`, `Event.callback c r` records
`cb(r)` for the stored callback value `c`, and `Event.completed` marks the
entry into the private method `done` (the point at which a batch completion
is processed).  Callback values have an abstract type `C`; item type is `T`.

The environment's only ways to interact with a live batcher are the public
methods `append`/`appendcb`, the run function sending `()` on the sender it
was handed (`Op.signal`; sending on a channel whose receiver was dropped is
a no-op for the batcher), and dropping the batcher (`Op.drop`, which runs
the inherent `drop` via the `Drop` impl).
-/

namespace AtomicBatcher

/-- `Result<(), &str>`: `Except.ok ()` is `Ok(())`, `Except.error s` is `Err(s)`. -/
abbrev Res : Type := Except String Unit

instance : DecidableEq Res := fun a b =>
  match a, b with
  | Except.ok (), Except.ok () => isTrue rfl
  | Except.error s, Except.error t =>
    if h : s = t then isTrue (by rw [h])
    else isFalse (fun he => by cases he; exact h rfl)
  | Except.ok _, Except.error _ => isFalse (fun he => by cases he)
  | Except.error _, Except.ok _ => isFalse (fun he => by cases he)

/-- State of `Batcher<T>` with callback type `C`, mirroring the Rust struct
field by field; the `running: Option<Receiver<()>>` field becomes the two
booleans `running` (is `Some`) and `signaled` (the held channel has a
message queued). -/
structure Batcher (T C : Type) where
  running : Bool
  signaled : Bool
  pending_batch : List T
  pending_callbacks : List C
  callbacks : List C
  deriving DecidableEq, Repr

/-- Observable actions of the batcher: invocations of the run function and
of stored callbacks, plus a marker for each entry into `done` (a batch
completion being processed). -/
inductive Event (T C : Type) where
  | run (batch : List T)
  | callback (cb : C) (res : Res)
  | completed
  deriving DecidableEq, Repr

variable {T C : Type}

/-- `Batcher::new`: all containers empty, `running: None`. -/
def Batcher.new : Batcher T C :=
  { running := false, signaled := false, pending_batch := [],
    pending_callbacks := [], callbacks := [] }

/-- Private method `done(err)` (lib.rs lines 116-130): invoke every stored
callback with `err`, set `running` to `None`, drain `pending_callbacks`
into `callbacks` and `pending_batch` into `nextbatch`; if both drained
values are empty stay idle, otherwise open a fresh channel and invoke the
run function with `nextbatch`. -/
def done (err : Res) (b : Batcher T C) : Batcher T C × List (Event T C) :=
  if b.pending_batch.isEmpty && b.pending_callbacks.isEmpty then
    ({ running := false, signaled := false, pending_batch := [],
       pending_callbacks := [], callbacks := b.pending_callbacks },
     b.callbacks.map (fun cb => Event.callback cb err) ++ [Event.completed])
  else
    ({ running := true, signaled := false, pending_batch := [],
       pending_callbacks := [], callbacks := b.pending_callbacks },
     b.callbacks.map (fun cb => Event.callback cb err)
       ++ [Event.completed, Event.run b.pending_batch])

/-- Public method `appendcb(val, cb)` (lib.rs lines 83-103).  If a channel
is held (`running.is_some()`): reset `pending_callbacks` when
`pending_batch` is empty, extend `pending_batch` with `val`, push `cb`
onto `callbacks`, and if `rx.try_recv()` succeeds drop the channel and
call `done(Ok(()))`.  Otherwise: open a fresh channel, set
`callbacks = vec![cb]` and invoke the run function with `val`. -/
def appendcb (val : List T) (cb : C) (b : Batcher T C) :
    Batcher T C × List (Event T C) :=
  if b.running then
    let b1 : Batcher T C :=
      { b with
        pending_callbacks :=
          if b.pending_batch.isEmpty then [] else b.pending_callbacks,
        pending_batch := b.pending_batch ++ val,
        callbacks := b.callbacks ++ [cb] }
    if b1.signaled then
      done (Except.ok ()) { b1 with running := false, signaled := false }
    else
      (b1, [])
  else
    ({ b with running := true, signaled := false, callbacks := [cb] },
     [Event.run val])

/-- Public method `append(val)` delegates to `appendcb` with the no-op
callback `|_| {}`; the no-op function pointer is an arbitrary value of the
abstract callback type, supplied here as `noop`. -/
def append (noop : C) (val : List T) (b : Batcher T C) :
    Batcher T C × List (Event T C) :=
  appendcb val noop b

/-- The inherent method `drop` (lib.rs lines 105-113), reached through the
`Drop` impl: if a channel is held, block on `rx.recv()` (discarding its
result: the call returns once the run's `()` arrives or its sender is
dropped), drop the channel and call `done(Ok(()))`. -/
def drop (b : Batcher T C) : Batcher T C × List (Event T C) :=
  if b.running then
    done (Except.ok ()) { b with running := false, signaled := false }
  else
    (b, [])

/-- The run function sending `()` on the sender it was handed.  Only a send
on the channel the batcher currently holds is observable; a send on a
channel whose receiver was already dropped does nothing to the batcher. -/
def signal (b : Batcher T C) : Batcher T C :=
  if b.running then { b with signaled := true } else b

/-- The environment's moves against a live batcher. -/
inductive Op (T C : Type) where
  | appendcb (val : List T) (cb : C)
  | signal
  | drop
  deriving DecidableEq, Repr

/-- One environment move. -/
def step (b : Batcher T C) : Op T C → Batcher T C × List (Event T C)
  | Op.appendcb val cb => appendcb val cb b
  | Op.signal => (signal b, [])
  | Op.drop => drop b

/-- Run a sequence of environment moves, accumulating the event trace. -/
def exec (b : Batcher T C) : List (Op T C) → Batcher T C × List (Event T C)
  | [] => (b, [])
  | op :: ops =>
    let r1 := step b op
    let r2 := exec r1.1 ops
    (r2.1, r1.2 ++ r2.2)

/-! ## Observation helpers over event traces -/

/-- The callback invocations in a trace, in order: which stored callback
value was called, and with which `Result`. -/
def callbackEvents : List (Event T C) → List (C × Res)
  | [] => []
  | Event.callback cb r :: es => (cb, r) :: callbackEvents es
  | Event.run _ :: es => callbackEvents es
  | Event.completed :: es => callbackEvents es

/-- Number of run-function invocations recorded in a trace. -/
def countRun : List (Event T C) → Nat
  | [] => 0
  | Event.run _ :: es => countRun es + 1
  | Event.callback _ _ :: es => countRun es
  | Event.completed :: es => countRun es

/-- Number of processed batch completions (entries into `done`) recorded in
a trace. -/
def countCompleted : List (Event T C) → Nat
  | [] => 0
  | Event.completed :: es => countCompleted es + 1
  | Event.run _ :: es => countCompleted es
  | Event.callback _ _ :: es => countCompleted es

/-- Number of batches currently in flight: 1 when a channel is held. -/
def inFlight (b : Batcher T C) : Nat :=
  if b.running then 1 else 0

/-- Concatenation, in submission order, of the item groups of a list of
submissions `(items, callback)`. -/
def joinVals : List (List T × C) → List T
  | [] => []
  | p :: l => p.1 ++ joinVals l

/-- The environment moves performing a list of submissions in order. -/
def submits (l : List (List T × C)) : List (Op T C) :=
  l.map fun p => Op.appendcb p.1 p.2

/-! ## Basic lemmas -/

theorem callbackEvents_append (es fs : List (Event T C)) :
    callbackEvents (es ++ fs) = callbackEvents es ++ callbackEvents fs := by
  induction es with
  | nil => rfl
  | cons e es ih => cases e <;> simp [callbackEvents, ih]

theorem callbackEvents_map_callback (cbs : List C) (err : Res) :
    callbackEvents (cbs.map fun cb => (Event.callback cb err : Event T C))
      = cbs.map fun cb => (cb, err) := by
  induction cbs with
  | nil => rfl
  | cons cb cbs ih => simp [callbackEvents, ih]

theorem countRun_append (es fs : List (Event T C)) :
    countRun (es ++ fs) = countRun es + countRun fs := by
  induction es with
  | nil => simp [countRun]
  | cons e es ih => cases e <;> simp [countRun, ih] <;> omega

theorem countCompleted_append (es fs : List (Event T C)) :
    countCompleted (es ++ fs) = countCompleted es + countCompleted fs := by
  induction es with
  | nil => simp [countCompleted]
  | cons e es ih => cases e <;> simp [countCompleted, ih] <;> omega

theorem countRun_map_callback (cbs : List C) (err : Res) :
    countRun (cbs.map fun cb => (Event.callback cb err : Event T C)) = 0 := by
  induction cbs with
  | nil => rfl
  | cons cb cbs ih => simp [countRun, ih]

theorem countCompleted_map_callback (cbs : List C) (err : Res) :
    countCompleted (cbs.map fun cb => (Event.callback cb err : Event T C))
      = 0 := by
  induction cbs with
  | nil => rfl
  | cons cb cbs ih => simp [countCompleted, ih]

/-- What `done err b` yields to the callbacks it fires: exactly the stored
`callbacks`, in order, each with `err`. -/
theorem callbackEvents_done (err : Res) (b : Batcher T C) :
    callbackEvents (done err b).2 = b.callbacks.map fun cb => (cb, err) := by
  unfold done
  split <;>
    simp [callbackEvents_append, callbackEvents_map_callback, callbackEvents]

/-- `done` never leaves anything in `pending_callbacks` (both branches
drain it). -/
theorem done_pending_callbacks (err : Res) (b : Batcher T C) :
    (done err b).1.pending_callbacks = [] := by
  unfold done
  split <;> rfl

/-- No operation ever puts an element into `pending_callbacks`: one step
preserves its emptiness. -/
theorem step_pending_callbacks (b : Batcher T C) (op : Op T C)
    (h : b.pending_callbacks = []) :
    (step b op).1.pending_callbacks = [] := by
  cases op with
  | appendcb val cb =>
    by_cases hr : b.running = true
    · by_cases hs : b.signaled = true
      · simp [step, appendcb, hr, hs, done_pending_callbacks]
      · simp [step, appendcb, hr, hs, h]
    · simp [step, appendcb, hr, h]
  | signal =>
    by_cases hr : b.running = true <;> simp [step, signal, hr, h]
  | drop =>
    by_cases hr : b.running = true <;>
      simp [step, drop, hr, h, done_pending_callbacks]

theorem exec_pending_callbacks :
    ∀ (ops : List (Op T C)) (b : Batcher T C), b.pending_callbacks = [] →
      (exec b ops).1.pending_callbacks = []
  | [], _, h => h
  | op :: ops, b, h =>
    exec_pending_callbacks ops (step b op).1 (step_pending_callbacks b op h)

/-- C9: in every state reachable from a fresh batcher by any sequence of
public operations, `pending_callbacks` is empty — it starts empty,
`appendcb` only ever reassigns it to a fresh empty vector, and `done` only
drains it. -/
theorem c9_pending_callbacks_always_empty (ops : List (Op T C)) :
    (exec (Batcher.new : Batcher T C) ops).1.pending_callbacks = [] :=
  exec_pending_callbacks ops Batcher.new rfl

/-- Via the public interface, `done` is only ever reached with
`Ok(())` (from `appendcb` after a successful `try_recv`, or from `drop`),
so a single step can only fire callbacks with the `ok` result. -/
theorem step_callbacks_ok (b : Batcher T C) (op : Op T C) :
    ∀ p ∈ callbackEvents (step b op).2, p.2 = Except.ok () := by
  have hdone : ∀ b' : Batcher T C,
      ∀ p ∈ callbackEvents (done (Except.ok ()) b').2, p.2 = Except.ok () := by
    intro b' p hp
    rw [callbackEvents_done] at hp
    simp only [List.mem_map] at hp
    obtain ⟨cb, -, hcb⟩ := hp
    rw [← hcb]
  cases op with
  | appendcb val cb =>
    by_cases hr : b.running = true
    · by_cases hs : b.signaled = true
      · simp only [step, appendcb, hr, hs, if_true]
        exact hdone _
      · simp [step, appendcb, hr, hs, callbackEvents]
    · simp [step, appendcb, hr, callbackEvents]
  | signal => simp [step, callbackEvents]
  | drop =>
    by_cases hr : b.running = true
    · simp only [step, drop, hr, if_true]
      exact hdone _
    · simp [step, drop, hr, callbackEvents]

theorem exec_callbacks_ok :
    ∀ (ops : List (Op T C)) (b : Batcher T C),
      ∀ p ∈ callbackEvents (exec b ops).2, p.2 = Except.ok () := by
  intro ops
  induction ops with
  | nil => intro b p hp; simp [exec, callbackEvents] at hp
  | cons op ops ih =>
    intro b p hp
    simp only [exec, callbackEvents_append, List.mem_append] at hp
    cases hp with
    | inl h => exact step_callbacks_ok b op p h
    | inr h => exact ih (step b op).1 p h

/-- C10: every invocation of the completion processing reachable through
the public interface passes `Ok(())` (`appendcb` and `drop` both call
`done(Ok(()))`), so along any sequence of public operations no completion
callback is ever invoked with an `Err` result. -/
theorem c10_callbacks_never_err (ops : List (Op T C)) :
    ((callbackEvents (exec (Batcher.new : Batcher T C) ops).2).all
      fun p => p.2 == Except.ok ()) = true := by
  rw [List.all_eq_true]
  intro p hp
  have h := exec_callbacks_ok ops Batcher.new p hp
  simp [h]

/-- C7: `done(err)` invokes exactly the callbacks stored for the completed
batch, in order, each exactly once, all with the same result value `err`;
in particular, after `appendcb([1,2,3], cbA)` on a fresh batcher,
processing the completion with `Err("x")` invokes `cbA` exactly once with
`Err("x")`. -/
theorem c7_error_broadcast :
    (∀ (err : Res) (b : Batcher T C),
      callbackEvents (done err b).2 = b.callbacks.map fun cb => (cb, err)) ∧
    ∀ cbA : Nat,
      callbackEvents
        (done (Except.error "x")
          (appendcb [1, 2, 3] cbA (Batcher.new : Batcher Nat Nat)).1).2
        = [(cbA, Except.error "x")] :=
  ⟨fun err b => callbackEvents_done err b, fun _ => rfl⟩

/-- C3: `appendcb` on an idle batcher (no channel held) opens a channel,
stores exactly `[cb]` as the active callbacks, and invokes the run
function synchronously with exactly the submitted items. -/
theorem c3_idle_submit_runs_sync (b : Batcher T C) (val : List T) (cb : C)
    (h : b.running = false) :
    (appendcb val cb b).1.running = true ∧
    (appendcb val cb b).1.callbacks = [cb] ∧
    (appendcb val cb b).2 = [Event.run val] := by
  simp [appendcb, h]

/-- Witness for C3 at a fresh batcher and the submission `[1,2,3]`. -/
theorem c3_witness :
    (Batcher.new : Batcher Nat Nat).running = false ∧
    ((appendcb [1, 2, 3] 7 (Batcher.new : Batcher Nat Nat)).1.running = true ∧
     (appendcb [1, 2, 3] 7 (Batcher.new : Batcher Nat Nat)).1.callbacks = [7] ∧
     (appendcb [1, 2, 3] 7 (Batcher.new : Batcher Nat Nat)).2
       = [Event.run [1, 2, 3]]) :=
  ⟨rfl, c3_idle_submit_runs_sync Batcher.new [1, 2, 3] 7 rfl⟩

/-- C1 (code bug, evaluated at the failing input): `appendcb` pushes the
callback of a submission made while a batch is in flight onto the *active*
list `callbacks` (lib.rs line 89) instead of `pending_callbacks`, so that
callback fires at the completion of the batch already in flight.  On the
trace `appendcb([1], 10); signal; appendcb([2], 20)` the callback `20`
(submitted with item `2`) is invoked — with the result of batch `[1]` —
*before* the run function is even invoked with `[2]`, and the later
completion of batch `[2]` fires no callback; this contradicts the doc
comment on `append` ("The accepted callback is called when the batch
containing the values have been run"). -/
theorem c1_callback_gets_wrong_batch_result :
    exec (Batcher.new : Batcher Nat Nat)
        [Op.appendcb [1] 10, Op.signal, Op.appendcb [2] 20]
      = ({ running := true, signaled := false, pending_batch := [],
           pending_callbacks := [], callbacks := [] },
         [Event.run [1],
          Event.callback 10 (Except.ok ()),
          Event.callback 20 (Except.ok ()),
          Event.completed,
          Event.run [2]]) := by
  rfl

/-- C2 (code bug, evaluated at the failing input): a submission while a
batch is in flight (channel held, no completion signal yet) appends its
items to `pending_batch` in order and does not invoke the run function,
but its callback lands in the *active* list `callbacks`
(`self.callbacks.push(cb)`, lib.rs line 89) while `pending_callbacks`
stays empty — not in `pending_callbacks` as claimed. -/
theorem c2_running_submission_pushes_active_callbacks :
    appendcb [2] 20
        ({ running := true, signaled := false, pending_batch := [],
           pending_callbacks := [], callbacks := [10] } : Batcher Nat Nat)
      = ({ running := true, signaled := false, pending_batch := [2],
           pending_callbacks := [], callbacks := [10, 20] },
         []) := by
  rfl

/-- C8 (counterexample): the code signals no ProtocolViolation (nor any
other error) on a misused completion capability.  At these concrete
inputs, a second completion signal for the batch in flight, and a
completion signal with no batch in flight, are silently absorbed: the
resulting state and the entire observable event trace are identical to
the executions without the extra signal. -/
theorem c8_counterexample :
    exec (Batcher.new : Batcher Nat Nat)
        [Op.appendcb [1] 1, Op.signal, Op.signal, Op.appendcb [2] 2]
      = exec (Batcher.new : Batcher Nat Nat)
        [Op.appendcb [1] 1, Op.signal, Op.appendcb [2] 2] ∧
    exec (Batcher.new : Batcher Nat Nat) [Op.signal]
      = exec (Batcher.new : Batcher Nat Nat) [] :=
  ⟨rfl, rfl⟩

/-- C8 (amended): a completion signal arriving when no batch is in flight
is a no-op on the batcher, and a duplicate completion signal for the batch
in flight is indistinguishable from a single one; misused completion
capabilities are silently discarded and no ProtocolViolation error is
signaled (the code has no error signal at all). -/
theorem c8_stray_signals_silently_discarded (b : Batcher T C) :
    (b.running = false → signal b = b) ∧ signal (signal b) = signal b := by
  constructor
  · intro h
    simp [signal, h]
  · by_cases hr : b.running = true <;> simp [signal, hr]

/-- Witness for C8's amended theorem at concrete states. -/
theorem c8_witness :
    (Batcher.new : Batcher Nat Nat).running = false ∧
    signal (Batcher.new : Batcher Nat Nat) = Batcher.new ∧
    signal (signal ({ running := true, signaled := false,
                      pending_batch := [], pending_callbacks := [],
                      callbacks := [1] } : Batcher Nat Nat))
      = signal { running := true, signaled := false, pending_batch := [],
                 pending_callbacks := [], callbacks := [1] } :=
  ⟨rfl, (c8_stray_signals_silently_discarded Batcher.new).1 rfl,
    (c8_stray_signals_silently_discarded _).2⟩

/-- C5: processing a completion when something is queued (`pending_batch`
or `pending_callbacks` non-empty) re-enters the running state and invokes
the run function exactly once, synchronously within the same `done` call,
with the drained pending items as the next batch; when both are empty the
batcher returns to idle and the run function is not invoked again. -/
theorem c5_completion_chains_synchronously (err : Res) (b : Batcher T C) :
    (b.pending_batch ≠ [] ∨ b.pending_callbacks ≠ [] →
      (done err b).1.running = true ∧
      (done err b).2
        = (b.callbacks.map fun cb => Event.callback cb err)
            ++ [Event.completed, Event.run b.pending_batch]) ∧
    (b.pending_batch = [] → b.pending_callbacks = [] →
      (done err b).1.running = false ∧
      (done err b).2
        = (b.callbacks.map fun cb => Event.callback cb err)
            ++ [Event.completed]) := by
  constructor
  · intro h
    have hcond :
        (b.pending_batch.isEmpty && b.pending_callbacks.isEmpty) = false := by
      rcases h with h | h <;> cases hpb : b.pending_batch <;>
        cases hpc : b.pending_callbacks <;> simp_all
    simp [done, hcond]
  · intro h1 h2
    simp [done, h1, h2]

/-- Witness for C5: a pending item `5` chains into a new run; an empty
queue returns to idle. -/
theorem c5_witness :
    (([5] : List Nat) ≠ [] ∨ ([] : List Nat) ≠ []) ∧
    ((done (Except.ok ())
        ({ running := false, signaled := false, pending_batch := [5],
           pending_callbacks := [], callbacks := [3] } : Batcher Nat Nat)).1.running
        = true ∧
      (done (Except.ok ())
        ({ running := false, signaled := false, pending_batch := [5],
           pending_callbacks := [], callbacks := [3] } : Batcher Nat Nat)).2
        = [Event.callback 3 (Except.ok ()), Event.completed,
           Event.run [5]]) ∧
    ((done (Except.ok ())
        ({ running := false, signaled := false, pending_batch := [],
           pending_callbacks := [], callbacks := [3] } : Batcher Nat Nat)).1.running
        = false ∧
      (done (Except.ok ())
        ({ running := false, signaled := false, pending_batch := [],
           pending_callbacks := [], callbacks := [3] } : Batcher Nat Nat)).2
        = [Event.callback 3 (Except.ok ()), Event.completed]) :=
  ⟨Or.inl (by decide),
    (c5_completion_chains_synchronously (Except.ok ())
      { running := false, signaled := false, pending_batch := [5],
        pending_callbacks := [], callbacks := [3] }).1
      (Or.inl (by decide)),
    (c5_completion_chains_synchronously (Except.ok ())
      { running := false, signaled := false, pending_batch := [],
        pending_callbacks := [], callbacks := [3] }).2 rfl rfl⟩

/-- Executing a concatenation of move lists runs them in sequence and
concatenates the traces. -/
theorem exec_append (b : Batcher T C) (ops1 ops2 : List (Op T C)) :
    exec b (ops1 ++ ops2)
      = ((exec (exec b ops1).1 ops2).1,
         (exec b ops1).2 ++ (exec (exec b ops1).1 ops2).2) := by
  induction ops1 generalizing b with
  | nil => simp [exec]
  | cons op ops ih => simp [exec, ih, List.append_assoc]

/-- Submissions made while a channel is held and unsignaled queue up: they
extend `pending_batch` in order, push their callbacks onto `callbacks`,
keep `pending_callbacks` empty and emit no events. -/
theorem submits_state :
    ∀ (l : List (List T × C)) (b : Batcher T C),
      b.running = true → b.signaled = false → b.pending_callbacks = [] →
      exec b (submits l)
        = ({ running := true, signaled := false,
             pending_batch := b.pending_batch ++ joinVals l,
             pending_callbacks := [],
             callbacks := b.callbacks ++ l.map Prod.snd }, []) := by
  intro l
  induction l with
  | nil =>
    intro b h1 h2 h3
    obtain ⟨running, signaled, pb, pcb, cbs⟩ := b
    simp_all [exec, submits, joinVals]
  | cons p l ih =>
    intro b h1 h2 h3
    obtain ⟨running, signaled, pb, pcb, cbs⟩ := b
    simp only at h1 h2 h3
    subst h1; subst h2; subst h3
    have hstep :
        appendcb p.1 p.2
            ({ running := true, signaled := false, pending_batch := pb,
               pending_callbacks := [], callbacks := cbs } : Batcher T C)
          = ({ running := true, signaled := false,
               pending_batch := pb ++ p.1, pending_callbacks := [],
               callbacks := cbs ++ [p.2] }, []) := by
      simp [appendcb]
    simp only [submits, List.map_cons, exec, step] at *
    rw [hstep]
    rw [ih _ rfl rfl rfl]
    simp [joinVals, List.append_assoc]

/-- C4: all submissions made while one batch is in flight coalesce — when
that batch's completion is processed, the run function receives exactly
the concatenation of the submitted item groups in submission order (and no
run happens in between). -/
theorem c4_coalescing (b : Batcher T C) (l : List (List T × C))
    (h1 : b.running = true) (h2 : b.signaled = false)
    (h3 : b.pending_batch = []) (h4 : b.pending_callbacks = [])
    (h5 : joinVals l ≠ []) :
    (exec b (submits l ++ [Op.signal, Op.drop])).2
      = ((b.callbacks ++ l.map Prod.snd).map
          fun cb => Event.callback cb (Except.ok ()))
        ++ [Event.completed, Event.run (joinVals l)] := by
  rw [exec_append, submits_state l b h1 h2 h4]
  cases hj : joinVals l with
  | nil => exact absurd hj h5
  | cons a as => simp [exec, step, signal, drop, done, h3, hj]

/-- Witness for C4: with batch `[1]` in flight (callback `0`), the
submissions `([2], 1)` and `([3], 2)` coalesce into the next batch
`[2, 3]`. -/
theorem c4_witness :
    ({ running := true, signaled := false, pending_batch := [],
       pending_callbacks := [], callbacks := [0] } : Batcher Nat Nat).running
      = true ∧
    joinVals [([2], 1), ([3], 2)] ≠ [] ∧
    (exec
        ({ running := true, signaled := false, pending_batch := [],
           pending_callbacks := [], callbacks := [0] } : Batcher Nat Nat)
        (submits [([2], 1), ([3], 2)] ++ [Op.signal, Op.drop])).2
      = [Event.callback 0 (Except.ok ()), Event.callback 1 (Except.ok ()),
         Event.callback 2 (Except.ok ()), Event.completed,
         Event.run [2, 3]] :=
  ⟨rfl, by decide,
    c4_coalescing
      { running := true, signaled := false, pending_batch := [],
        pending_callbacks := [], callbacks := [0] }
      [([2], 1), ([3], 2)] rfl rfl rfl rfl (by decide)⟩

/-- Shape of the events emitted by one `done` call: the fired callbacks,
then the completion marker, then at most one run invocation. -/
theorem done_shape (err : Res) (b : Batcher T C) :
    ∃ tail : List (Event T C),
      (done err b).2
        = (b.callbacks.map fun cb => Event.callback cb err)
            ++ ([Event.completed] ++ tail) ∧
      countRun tail ≤ 1 := by
  unfold done
  split
  · exact ⟨[], rfl, by simp [countRun]⟩
  · exact ⟨[Event.run b.pending_batch], rfl, by simp [countRun]⟩

/-- Within the events of one `done` call, every prefix has at least as
many processed completions as run invocations (the run, if any, comes
after the completion marker). -/
theorem done_chunk_bounded (err : Res) (b : Batcher T C) :
    ∀ p q : List (Event T C), (done err b).2 = p ++ q →
      countRun p ≤ countCompleted p := by
  obtain ⟨tail, hshape, htail⟩ := done_shape err b
  intro p q h
  rw [hshape] at h
  rcases List.append_eq_append_iff.mp h with ⟨s, hp, hs⟩ | ⟨r, hr, -⟩
  · -- p = cbmap ++ s with [completed] ++ tail = s ++ q
    subst hp
    cases s with
    | nil =>
      simp [countRun_append, countCompleted_append, countRun_map_callback,
        countCompleted_map_callback, countRun, countCompleted]
    | cons e s =>
      obtain ⟨he, hs'⟩ : Event.completed = e ∧ tail = s ++ q := by
        simpa using hs
      subst he
      have hsrun : countRun s ≤ countRun tail := by
        rw [hs', countRun_append]; omega
      simp only [countRun_append, countCompleted_append,
        countRun_map_callback, countCompleted_map_callback, countRun,
        countCompleted]
      omega
  · -- the callback block splits as p ++ r
    have : countRun p + countRun r = 0 := by
      rw [← countRun_append, ← hr, countRun_map_callback]
    omega

/-- Balance equation for one `done` call: it records one completion and
re-enters flight exactly when it emits a run invocation. -/
theorem done_counts (err : Res) (b : Batcher T C) :
    countRun (done err b).2 + 1
      = countCompleted (done err b).2 + inFlight (done err b).1 := by
  unfold done
  split <;>
    simp [countRun_append, countCompleted_append, countRun_map_callback,
      countCompleted_map_callback, countRun, countCompleted, inFlight]

/-- Extending a well-balanced trace of a batch in flight by the events of
a `done` call keeps every prefix's run count within one of its completion
count, and restores the balance equation. -/
theorem done_extend (err : Res) (b : Batcher T C) (es : List (Event T C))
    (h1 : ∀ p q, es = p ++ q → countRun p ≤ countCompleted p + 1)
    (h2 : countRun es = countCompleted es + 1) :
    (∀ p q, es ++ (done err b).2 = p ++ q →
      countRun p ≤ countCompleted p + 1) ∧
    countRun (es ++ (done err b).2)
      = countCompleted (es ++ (done err b).2) + inFlight (done err b).1 := by
  constructor
  · intro p q h
    rcases List.append_eq_append_iff.mp h with ⟨s, hp, hs⟩ | ⟨r, hr, -⟩
    · subst hp
      have := done_chunk_bounded err b s q hs
      simp only [countRun_append, countCompleted_append]
      omega
    · have hcr : countRun p + countRun r = countRun es := by
        rw [← countRun_append, ← hr]
      have hcc : countCompleted p + countCompleted r = countCompleted es :=
        by rw [← countCompleted_append, ← hr]
      have := h1 p r hr
      omega
  · have := done_counts err b
    simp only [countRun_append, countCompleted_append]
    omega

/-- One environment move preserves the prefix bound (never two run
invocations without an intervening processed completion) and the balance
equation between run count, completion count and batches in flight. -/
theorem step_bounded (b : Batcher T C) (op : Op T C)
    (es : List (Event T C))
    (h1 : ∀ p q, es = p ++ q → countRun p ≤ countCompleted p + 1)
    (h2 : countRun es = countCompleted es + inFlight b) :
    (∀ p q, es ++ (step b op).2 = p ++ q →
      countRun p ≤ countCompleted p + 1) ∧
    countRun (es ++ (step b op).2)
      = countCompleted (es ++ (step b op).2) + inFlight (step b op).1 := by
  cases op with
  | appendcb val cb =>
    by_cases hr : b.running = true
    · by_cases hs : b.signaled = true
      · have h2' : countRun es = countCompleted es + 1 := by
          simpa [inFlight, hr] using h2
        have hst : step b (Op.appendcb val cb)
            = done (Except.ok ())
                { running := false, signaled := false,
                  pending_batch := b.pending_batch ++ val,
                  pending_callbacks :=
                    if b.pending_batch.isEmpty then []
                    else b.pending_callbacks,
                  callbacks := b.callbacks ++ [cb] } := by
          simp [step, appendcb, hr, hs]
        rw [hst]
        exact done_extend _ _ es h1 h2'
      · have hst : step b (Op.appendcb val cb)
            = ({ running := b.running, signaled := b.signaled,
                 pending_batch := b.pending_batch ++ val,
                 pending_callbacks :=
                   if b.pending_batch.isEmpty then []
                   else b.pending_callbacks,
                 callbacks := b.callbacks ++ [cb] }, []) := by
          simp [step, appendcb, hr, hs]
        rw [hst]
        refine ⟨fun p q h => h1 p q (by simpa using h), ?_⟩
        simpa [inFlight, hr] using h2
    · have hst : step b (Op.appendcb val cb)
          = ({ b with running := true, signaled := false,
                      callbacks := [cb] }, [Event.run val]) := by
        simp [step, appendcb, hr]
      rw [hst]
      have h2' : countRun es = countCompleted es := by
        simpa [inFlight, hr] using h2
      constructor
      · intro p q h
        rcases List.append_eq_append_iff.mp h with ⟨s, hp, hs'⟩ | ⟨r, hr', -⟩
        · subst hp
          cases s with
          | nil =>
            simp only [countRun_append, countCompleted_append, countRun,
              countCompleted]
            omega
          | cons e s =>
            obtain ⟨he, hs''⟩ : e = Event.run val ∧ s ++ q = [] := by
              have := hs'.symm
              simpa [eq_comm] using this
            obtain ⟨hs1, -⟩ := List.append_eq_nil.mp hs''
            subst he; subst hs1
            simp only [countRun_append, countCompleted_append, countRun,
              countCompleted]
            omega
        · have hcr : countRun p + countRun r = countRun es := by
            rw [← countRun_append, ← hr']
          have hcc : countCompleted p + countCompleted r
              = countCompleted es := by
            rw [← countCompleted_append, ← hr']
          have := h1 p r hr'
          omega
      · simp only [countRun_append, countCompleted_append, countRun,
          countCompleted, inFlight, if_true]
        omega
  | signal =>
    have hst : step b Op.signal = (signal b, []) := rfl
    rw [hst]
    refine ⟨fun p q h => h1 p q (by simpa using h), ?_⟩
    have hif : inFlight (signal b) = inFlight b := by
      by_cases hr : b.running = true <;> simp [signal, inFlight, hr]
    simpa [hif] using h2
  | drop =>
    by_cases hr : b.running = true
    · have h2' : countRun es = countCompleted es + 1 := by
        simpa [inFlight, hr] using h2
      have hst : step b Op.drop
          = done (Except.ok ()) { b with running := false,
                                         signaled := false } := by
        simp [step, drop, hr]
      rw [hst]
      exact done_extend _ _ es h1 h2'
    · have hst : step b Op.drop = (b, []) := by
        simp [step, drop, hr]
      rw [hst]
      exact ⟨fun p q h => h1 p q (by simpa using h), by simpa using h2⟩

theorem exec_bounded :
    ∀ (ops : List (Op T C)) (b : Batcher T C) (es : List (Event T C)),
      (∀ p q, es = p ++ q → countRun p ≤ countCompleted p + 1) →
      countRun es = countCompleted es + inFlight b →
      (∀ p q, es ++ (exec b ops).2 = p ++ q →
        countRun p ≤ countCompleted p + 1) ∧
      countRun (es ++ (exec b ops).2)
        = countCompleted (es ++ (exec b ops).2) + inFlight (exec b ops).1 := by
  intro ops
  induction ops with
  | nil =>
    intro b es h1 h2
    exact ⟨fun p q h => h1 p q (by simpa [exec] using h),
      by simpa [exec] using h2⟩
  | cons op ops ih =>
    intro b es h1 h2
    obtain ⟨g1, g2⟩ := step_bounded b op es h1 h2
    have hrec := ih (step b op).1 (es ++ (step b op).2) g1 g2
    simpa [exec, List.append_assoc] using hrec

/-- C6: along every sequence of public operations, at every observation
point of the event trace the run function has been invoked at most once
more than the number of processed completions — it is never invoked a
second time before the completion of its prior invocation has been
processed; at most one batch is in flight. -/
theorem c6_at_most_one_in_flight (ops : List (Op T C))
    (p q : List (Event T C))
    (h : (exec (Batcher.new : Batcher T C) ops).2 = p ++ q) :
    countRun p ≤ countCompleted p + 1 := by
  have base1 : ∀ p' q' : List (Event T C), ([] : List (Event T C)) = p' ++ q' →
      countRun p' ≤ countCompleted p' + 1 := by
    intro p' q' h'
    obtain ⟨hp, -⟩ := List.append_eq_nil.mp h'.symm
    subst hp
    simp [countRun, countCompleted]
  have base2 : countRun ([] : List (Event T C))
      = countCompleted ([] : List (Event T C))
        + inFlight (Batcher.new : Batcher T C) := by
    simp [countRun, countCompleted, inFlight, Batcher.new]
  exact (exec_bounded ops Batcher.new [] base1 base2).1 p q (by simpa using h)

/-- Witness for C6 on a trace that chains two batches: every prefix stays
within the bound; shown here at the prefix ending just before the second
run invocation. -/
theorem c6_witness :
    (exec (Batcher.new : Batcher Nat Nat)
        [Op.appendcb [1] 10, Op.signal, Op.appendcb [2] 20]).2
      = [Event.run [1], Event.callback 10 (Except.ok ()),
         Event.callback 20 (Except.ok ()), Event.completed]
        ++ [Event.run [2]] ∧
    countRun [Event.run [1], Event.callback 10 (Except.ok ()),
        Event.callback 20 (Except.ok ()),
        (Event.completed : Event Nat Nat)]
      ≤ countCompleted [Event.run [1], Event.callback 10 (Except.ok ()),
          Event.callback 20 (Except.ok ()),
          (Event.completed : Event Nat Nat)] + 1 :=
  ⟨rfl,
    c6_at_most_one_in_flight
      [Op.appendcb [1] 10, Op.signal, Op.appendcb [2] 20]
      [Event.run [1], Event.callback 10 (Except.ok ()),
       Event.callback 20 (Except.ok ()), Event.completed]
      [Event.run [2]] rfl⟩

end AtomicBatcher
